import Mathlib

/-!
Shallow embedding of the local-coder repository (memory.py, agent.py, ui.py,
tools.py, prompts.py) and verification of its specification claims.

Python strings are modelled as Lean `String` values, with helper functions
mirroring the Python string operations the code uses.  Machine floats in the
TF-IDF scoring are modelled with exact reals (`Real.log` for `math.log`).
-/

/-- Whitespace test used by Python `str.split()` and `str.strip()`
(space, tab, newline, carriage return, vertical tab, form feed). -/
def pyIsSpace (c : Char) : Bool :=
  c = ' ' || c = '\t' || c = '\n' || c = '\r' || c = '\x0b' || c = '\x0c'

/-- Word character test for the regex `\w` used by `MemoryStore._tokenize`
(letters, digits, underscore). -/
def pyWordChar (c : Char) : Bool :=
  c.isAlphanum || c = '_'

/-- Splits a character list into the maximal runs of characters satisfying
`p`, dropping all separator characters.  `cur` is the current run being
built, in reverse order.  With `p = fun c => !pyIsSpace c` this is Python
`str.split()`; with `p = pyWordChar` it is `re.findall(r"\w+", ...)`. -/
def splitRunsAux (p : Char → Bool) (cur : List Char) : List Char → List (List Char)
  | [] => if cur.isEmpty then [] else [cur.reverse]
  | c :: cs =>
    if p c then splitRunsAux p (c :: cur) cs
    else if cur.isEmpty then splitRunsAux p [] cs
    else cur.reverse :: splitRunsAux p [] cs

/-- Python `text.split()`: whitespace-separated words of a string. -/
def pyWords (s : String) : List String :=
  (splitRunsAux (fun c => !pyIsSpace c) [] s.data).map String.mk

/-- Embeds `MemoryStore._tokenize`: `re.findall(r"\w+", text.lower())`. -/
def tokenize (s : String) : List String :=
  (splitRunsAux pyWordChar [] (s.data.map Char.toLower)).map String.mk

/-- Joins character lists with a single space between them
(the character-level core of Python `" ".join`). -/
def joinWords : List (List Char) → List Char
  | [] => []
  | [w] => w
  | w :: ws => w ++ ' ' :: joinWords ws

/-- Python `" ".join(words)` on strings. -/
def spaceJoin (ws : List String) : String :=
  String.mk (joinWords (ws.map String.data))

/-- Python `str.strip()`: removes leading and trailing whitespace. -/
def pyStrip (s : String) : String :=
  String.mk (((s.data.dropWhile pyIsSpace).reverse.dropWhile pyIsSpace).reverse)

/-- Python `s.startswith(pre)`. -/
def pyStartswith (s pre : String) : Bool :=
  pre.data.isPrefixOf s.data

/-- First index at which `pat` occurs as a contiguous sublist of `cs`,
if any (substring search). -/
def subFind (pat : List Char) : List Char → Option Nat
  | [] => if pat.isEmpty then some 0 else none
  | c :: cs =>
    if pat.isPrefixOf (c :: cs) then some 0
    else (subFind pat cs).map (· + 1)

/-- Fuelled worker for `stripThink`.  Each recursive step removes one
`<think>...</think>` block, which consumes at least 15 characters, so fuel
equal to the length of the input is always sufficient. -/
def stripThinkFuel : Nat → List Char → List Char
  | 0, cs => cs
  | fuel + 1, cs =>
    match subFind "<think>".data cs with
    | none => cs
    | some i =>
      let rest := cs.drop (i + 7)
      match subFind "</think>".data rest with
      | none => cs
      | some j => cs.take i ++ stripThinkFuel fuel (rest.drop (j + 8))

/-- Embeds the assistant-text cleanup in `Agent.run`:
`re.sub(r"<think>.*?</think>", "", full_text, flags=re.DOTALL)`.  The lazy
regex removes, left to right, each span from an opening `<think>` tag to the
nearest following `</think>` tag; an opening tag with no later closing tag
matches nothing. -/
def stripThink (cs : List Char) : List Char :=
  stripThinkFuel cs.length cs

/-- The `clean_text` computation in `Agent.run`: strip `<think>` blocks, then
`str.strip()`. -/
def cleanText (s : String) : String :=
  pyStrip (String.mk (stripThink s.data))

-- Sanity checks on the string layer (concrete evaluations).
example : pyWords "  foo bar\tbaz " = ["foo", "bar", "baz"] := by decide
example : tokenize "Hello, WORLD_1!" = ["hello", "world_1"] := by decide
example : tokenize "" = [] := by decide
example : spaceJoin ["a", "b"] = "a b" := by decide
example : cleanText "a<think>secret</think>b" = "ab" := by decide
example : cleanText " x " = "x" := by decide
example : cleanText "a<think>no close" = "a<think>no close" := by decide

/-- A memory record, as the dict built by `MemoryStore.add`. -/
structure MemRec where
  id : String
  content : String
  tags : List String
  type : String
  timestamp : String
deriving DecidableEq, Repr

/-- Embeds `MemoryStore._chunk` with its default parameters
(`max_tokens = 500`, `overlap = 50`, hence step `450`), which are the only
values the repository ever uses: the `while i < len(words)` loop. -/
def chunkLoop (words : List String) (i : Nat) : List String :=
  if h : i < words.length then
    spaceJoin ((words.drop i).take 500) :: chunkLoop words (i + 450)
  else []
termination_by words.length - i
decreasing_by omega

/-- Embeds `MemoryStore._chunk`: content of at most 500 words is returned
unmodified as a single chunk, longer content goes through the window loop. -/
def chunk (text : String) : List String :=
  let words := pyWords text
  if words.length ≤ 500 then [text] else chunkLoop words 0

/-- Minimal JSON string escaping used by `json.dumps` (quote, backslash and
the common control characters; the `\uXXXX` escapes that `json.dumps` emits
for other control and non-ASCII characters are not modelled — no claim
depends on the escape table). -/
def jsonEscapeChar (c : Char) : List Char :=
  if c = '"' then ['\\', '"']
  else if c = '\\' then ['\\', '\\']
  else if c = '\n' then ['\\', 'n']
  else if c = '\t' then ['\\', 't']
  else if c = '\r' then ['\\', 'r']
  else [c]

/-- JSON escaping of a whole string. -/
def jsonEscape (s : String) : String :=
  String.mk (s.data.flatMap jsonEscapeChar)

/-- Embeds `json.dumps(mem)` for a memory record: keys appear in the
insertion order used by `MemoryStore.add`. -/
def dumpsRec (m : MemRec) : String :=
  "\x7b\"id\": \"" ++ jsonEscape m.id ++
  "\", \"content\": \"" ++ jsonEscape m.content ++
  "\", \"tags\": [" ++
  String.intercalate ", " (m.tags.map (fun t => "\"" ++ jsonEscape t ++ "\"")) ++
  "], \"type\": \"" ++ jsonEscape m.type ++
  "\", \"timestamp\": \"" ++ jsonEscape m.timestamp ++ "\"\x7d"

/-- Full content of the backing `memories.jsonl` file as `MemoryStore._save`
writes it: one serialized record per line. -/
def diskContents (memories : List MemRec) : String :=
  String.join (memories.map (fun m => dumpsRec m ++ "\n"))

/-- State of a `MemoryStore`: the in-memory record list and the content of
the backing file on disk. -/
structure StoreState where
  memories : List MemRec
  disk : String
deriving Repr

/-- Embeds `MemoryStore._save`: rewrite the backing file in full. -/
def saveOp (st : StoreState) : StoreState :=
  { st with disk := diskContents st.memories }

/-- Embeds `MemoryStore.add`.  `meta i` supplies the fresh id and the UTC
timestamp for the i-th created record (`uuid.uuid4().hex[:12]` and
`datetime.now(...)` in the source).  Returns the new state and the list of
created records (the Python method returns the single record when only one
was created, the list otherwise). -/
def addOp (st : StoreState) (meta : Nat → String × String) (content : String)
    (tags : List String) (mem_type : String) : StoreState × List MemRec :=
  let chunks := chunk content
  let added := chunks.enum.map (fun p =>
    { id := (meta p.1).1, content := p.2, tags := tags, type := mem_type,
      timestamp := (meta p.1).2 : MemRec })
  (saveOp { st with memories := st.memories ++ added }, added)

/-- Embeds the list scan of `MemoryStore.delete`: remove the first record
whose id starts with the given prefix string, report whether one was found. -/
def mdelete : List MemRec → String → List MemRec × Bool
  | [], _ => ([], false)
  | m :: rest, pfx =>
    if pyStartswith m.id pfx then (rest, true)
    else
      let r := mdelete rest pfx
      (m :: r.1, r.2)

/-- Embeds `MemoryStore.delete` including persistence: on success the store
is saved, on failure nothing changes. -/
def deleteOp (st : StoreState) (pfx : String) : StoreState × Bool :=
  let r := mdelete st.memories pfx
  if r.2 then (saveOp { st with memories := r.1 }, true) else (st, false)

-- Sanity checks for chunk-free paths.
example : chunk "one two three" = ["one two three"] := by decide
example :
    (mdelete [{ id := "abc", content := "c", tags := [], type := "t",
                timestamp := "s" }] "ab").2 = true := by decide

/-- Token set of a record as `MemoryStore.search` builds it:
`set(self._tokenize(mem["content"] + " " + " ".join(mem.get("tags", []))))`.
The list may contain duplicates; only membership is ever used, matching the
Python `set`. -/
def dtokens (m : MemRec) : List String :=
  tokenize (m.content ++ " " ++ spaceJoin m.tags)

/-- Document frequency of a term: the number of records whose token set
contains it (`df` in `MemoryStore.search`; `df.get(term, 0)` yields `0` for
terms no record contains). -/
def dfOf (memories : List MemRec) (t : String) : Nat :=
  (memories.filter (fun m => decide (t ∈ dtokens m))).length

/-- Embeds the per-record scoring loop of `MemoryStore.search`: iterate over
the query-token list (duplicates included, as in the Python `for term in
query_terms`), and for each term contained in the token set of the record add
`tf / total * log((doc_count + 1) / (df + 1))`. -/
noncomputable def memScore (doc_count : Nat) (df : String → Nat)
    (query_terms : List String) (m : MemRec) : ℝ :=
  let tf := tokenize m.content
  let total : Nat := if tf.length = 0 then 1 else tf.length
  query_terms.foldl
    (fun score term =>
      if term ∈ dtokens m then
        score + ((tf.count term : ℝ) / (total : ℝ)) *
          Real.log (((doc_count : ℝ) + 1) / ((df term : ℝ) + 1))
      else score)
    0

/-- Stable descending insertion: place `x` in front of the first element
whose key is not larger.  This realizes the stability and descending order
of Python `list.sort(key=..., reverse=True)` on (score, record) pairs. -/
noncomputable def insertDesc (x : ℝ × MemRec) :
    List (ℝ × MemRec) → List (ℝ × MemRec)
  | [] => [x]
  | y :: rest => if y.1 ≤ x.1 then x :: y :: rest else y :: insertDesc x rest

/-- Stable sort by score, descending (`scored.sort(key=lambda x: x[0],
reverse=True)` — Python sorts are stable). -/
noncomputable def sortDesc : List (ℝ × MemRec) → List (ℝ × MemRec)
  | [] => []
  | x :: rest => insertDesc x (sortDesc rest)

/-- Embeds `MemoryStore.search`: empty store gives `[]`; a query with no
tokens gives the first `top_k` records; otherwise records are scored, those
with score `> 0` kept (in store order), stably sorted by descending score,
and the first `top_k` returned. -/
noncomputable def msearch (memories : List MemRec) (query : String)
    (top_k : Nat) : List MemRec :=
  if memories = [] then []
  else
    let query_terms := tokenize query
    if query_terms = [] then memories.take top_k
    else
      let doc_count := memories.length
      let df := dfOf memories
      let scored := (memories.map (fun m => (memScore doc_count df query_terms m, m))).filter
        (fun p => decide (0 < p.1))
      ((sortDesc scored).take top_k).map Prod.snd

/-- Modelled from the wording of the specification sentence for claim C3
(and spec §4.4): the score as a sum over the distinct shared terms — each
query term counted once however often it occurs in the query.  This is the
second definition of a refinement comparison; `memScore` is the one
translated from the source. -/
noncomputable def claimScore (doc_count : Nat) (df : String → Nat)
    (query_terms : List String) (m : MemRec) : ℝ :=
  memScore doc_count df query_terms.dedup m

/-- Python list slice `l[-k:]`; for `k = 0` the slice `l[-0:]` is the whole
list. -/
def pyLastSlice {α : Type} (l : List α) (k : Nat) : List α :=
  if k = 0 then l else l.drop (l.length - k)

/-- Display line for one record in `MemoryStore.get_context`. -/
def contextLine (m : MemRec) : String :=
  let tags := String.intercalate ", " m.tags
  let head := "[" ++ m.type ++ "]" ++ (if tags ≠ "" then " (" ++ tags ++ ")" else "")
  "- " ++ head ++ " " ++ m.content

/-- Embeds `MemoryStore.get_context`: relevance search when the query is
non-empty, the most recent records otherwise; empty string when nothing is
found. -/
noncomputable def getContext (memories : List MemRec) (query : String)
    (max_memories : Nat) : String :=
  let mems := if query ≠ "" then msearch memories query max_memories
    else if memories = [] then [] else pyLastSlice memories max_memories
  if mems = [] then ""
  else String.intercalate "\n"
    ("## Relevant Project Memories" :: mems.map contextLine)

/-- The `BASE_PROMPT` constant of prompts.py (transcribed; apostrophes are
written as the escape `\x27`). -/
def BASE_PROMPT : String :=
  "You are a local coding assistant running entirely offline. You help users with software engineering tasks by reading, writing, and editing code, running commands, and managing project memory.\n\n## Available Tools\nYou have tools to:\n- **read_file**: Read file contents (always read before editing)\n- **write_file**: Create or overwrite files\n- **edit_file**: Find and replace text in files (use exact matching)\n- **run_command**: Execute shell commands (tests, git, builds, etc.)\n- **search_files**: Find files by glob pattern\n- **search_content**: Search file contents with regex\n- **remember**: Save information to project memory\n- **recall**: Search project memories\n- **ask_user**: Ask the user a clarifying question\n- **task_complete**: Signal task completion with a summary\n\n## Rules\n1. **Always read a file before editing it.** Never assume file contents.\n2. **Ask before destructive actions.** Use ask_user before deleting files or running dangerous commands.\n3. **Save learnings to memory.** After completing a task, use task_complete to save a summary. Use remember for project conventions and decisions.\n4. **Be precise with edits.** When using edit_file, the old_text must match exactly what\x27s in the file.\n5. **Explain your reasoning.** Tell the user what you\x27re doing and why.\n\n## Workflow\nFor non-trivial tasks:\n1. Explore relevant files to understand the codebase\n2. Form a step-by-step plan\n3. Present the plan and ask for approval\n4. Execute the plan step by step\n5. Run tests if available\n6. Summarize what was done\n\nFor quick questions or small fixes, respond directly without a formal plan.\n"

/-- The `PLANNING_ADDENDUM` constant of prompts.py. -/
def PLANNING_ADDENDUM : String :=
  "\n## Planning Mode\nYou are in planning mode. The user has given you a task. You should:\n1. Use search_files and read_file to explore relevant code\n2. Use recall to check for relevant project memories\n3. Think carefully about the approach\n4. Present a clear, numbered plan to the user\n5. Wait for approval before making changes\n\n/think\n"

/-- The `DIRECT_ADDENDUM` constant of prompts.py. -/
def DIRECT_ADDENDUM : String :=
  "\n## Direct Mode\nRespond concisely. For simple questions, answer directly. For small code changes, you may proceed without a formal plan.\n\n/no_think\n"

/-- Embeds `build_system_prompt` of prompts.py. -/
def buildSystemPrompt (memory_context : String) (planning : Bool) : String :=
  let parts := [BASE_PROMPT]
  let parts := if memory_context ≠ "" then parts ++ [memory_context] else parts
  let parts := if planning then parts ++ [PLANNING_ADDENDUM]
    else parts ++ [DIRECT_ADDENDUM]
  String.intercalate "\n\n" parts

/-- A flat mapping of primitive (string) tool-call arguments. -/
abbrev Args := List (String × String)

/-- Python `dict.get(k, d)` on an argument mapping. -/
def argGet (args : Args) (k d : String) : String :=
  match args.find? (fun p => p.1 == k) with
  | some p => p.2
  | none => d

/-- A tool call as assembled by `OllamaClient.chat_stream`. -/
structure ToolCall where
  name : String
  arguments : Args
deriving DecidableEq, Repr

/-- A conversation message.  An absent `tool_calls` key is modelled by the
empty list (only the assistant message built from a non-empty batch carries
tool calls in the source). -/
structure Msg where
  role : String
  content : String
  tool_calls : List ToolCall := []
deriving DecidableEq, Repr

/-- One semantic chunk yielded by `OllamaClient.chat_stream`: a text token,
a ready tool call, or the final done marker (which `Agent.run` ignores). -/
inductive Chunk where
  | text (s : String)
  | toolCall (tc : ToolCall)
  | done
deriving DecidableEq, Repr

/-- Result of one backend stream: the chunks delivered in order, and an
optional exception raised afterwards (mid-stream failures deliver the chunks
seen so far and then the error). -/
structure BackendOut where
  chunks : List Chunk
  err : Option String := none

/-- Text tokens of a chunk list, in order. -/
def chunkTexts (chunks : List Chunk) : List String :=
  chunks.filterMap (fun c => match c with | .text s => some s | _ => none)

/-- Tool calls of a chunk list, in order. -/
def chunkCalls (chunks : List Chunk) : List ToolCall :=
  chunks.filterMap (fun c => match c with | .toolCall tc => some tc | _ => none)

/-- The accumulated `full_text` of a round. -/
def fullText (chunks : List Chunk) : String :=
  String.join (chunkTexts chunks)

/-- Observable calls the agent makes to its UI collaborator, plus the
dispatch of an external tool implementation (`toolExec`).  Pure redraw
calls (`draw_status`, `stdscr.refresh`) carry no information and are not
recorded. -/
inductive UIEvent where
  | streamStart
  | streamTok (s : String)
  | streamEnd
  | showError (s : String)
  | showInfo (s : String)
  | showToolCall (name : String) (args : Args)
  | showToolResult (name result : String) (isError : Bool)
  | askApproval (desc : String) (granted : Bool)
  | askQuestion (q a : String)
  | toolExec (name : String) (args : Args)
deriving DecidableEq, Repr, BEq

/-- The external collaborators of the agent: the model backend, the
approval/question UI, the six real tool implementations of tools.py, and
the id/timestamp supply for memory records. -/
structure Env where
  backend : List Msg → BackendOut
  approve : String → Bool
  ask : String → String
  execToolExt : String → Args → String
  genId : Nat → String
  genTime : Nat → String

/-- Mutable agent state: conversation history, the memory store, the
planning flag, the supply counter for fresh record metadata, and the trace
of observable events so far. -/
structure AgentSt where
  history : List Msg
  memory : StoreState
  planning : Bool
  nextId : Nat
  events : List UIEvent

/-- The `TOOL_FUNCTIONS` table keys of tools.py. -/
def TOOL_FUNCTION_NAMES : List String :=
  ["read_file", "write_file", "edit_file", "run_command", "search_files",
   "search_content"]

/-- The `APPROVAL_REQUIRED` set of tools.py. -/
def APPROVAL_REQUIRED : List String :=
  ["run_command", "write_file", "edit_file"]

/-- Embeds `execute_tool` of tools.py: dispatch to the named implementation
(modelled by the external `Env.execToolExt`, which also covers the
argument-error handlers), or an unknown-tool error.  Returns the result and
the dispatch event (empty when no implementation was invoked). -/
def executeTool (env : Env) (name : String) (arguments : Args) :
    String × List UIEvent :=
  if TOOL_FUNCTION_NAMES.contains name then
    (env.execToolExt name arguments, [UIEvent.toolExec name arguments])
  else ("Error: Unknown tool \x27" ++ name ++ "\x27", [])

/-- Python `repr` of a string argument value as used in the approval
synopsis (single quotes, backslash-escaping of the quote and backslash; the
rarer control-character escapes of `repr` are not modelled — no claim
depends on the preview text). -/
def pyReprStr (s : String) : String :=
  "\x27" ++ String.mk (s.data.flatMap (fun c =>
    if c = '\x27' then ['\\', '\x27']
    else if c = '\\' then ['\\', '\\'] else [c])) ++ "\x27"

/-- The approval synopsis `f"{name}({', '.join(f'{k}={repr(v)[:80]}' ...)})"`
of `Agent._execute_tool_call`. -/
def approvalDesc (name : String) (arguments : Args) : String :=
  name ++ "(" ++
    String.intercalate ", "
      (arguments.map (fun p => p.1 ++ "=" ++ String.mk ((pyReprStr p.2).data.take 80)))
    ++ ")"

/-- Tag parsing in the `remember` branch:
`[t.strip() for t in tags_str.split(",") if t.strip()] if tags_str else []`. -/
def parseTags (tags_str : String) : List String :=
  if tags_str ≠ "" then
    ((tags_str.split (· = ',')).map pyStrip).filter (· ≠ "")
  else []

/-- Display line for one record in the `recall` branch. -/
def recallLine (m : MemRec) : String :=
  let tags := String.intercalate ", " m.tags
  "[" ++ m.type ++ "] " ++ m.content ++
    (if tags ≠ "" then " (tags: " ++ tags ++ ")" else "")

/-- Embeds `Agent._execute_tool_call`: the four agent-level tools, then the
approval gate for `APPROVAL_REQUIRED` names, then `execute_tool`.  Returns
the updated state and `none` exactly when the user denied a gated call. -/
noncomputable def executeToolCall (env : Env) (st : AgentSt) (name : String)
    (arguments : Args) : AgentSt × Option String :=
  if name = "ask_user" then
    let q := argGet arguments "question" ""
    let answer := env.ask q
    ({ st with events := st.events ++ [UIEvent.askQuestion q answer] },
     some ("User answered: " ++ answer))
  else if name = "remember" then
    let content := argGet arguments "content" ""
    let tags := parseTags (argGet arguments "tags" "")
    let r := addOp st.memory
      (fun i => (env.genId (st.nextId + i), env.genTime (st.nextId + i)))
      content tags "project"
    let st := { st with memory := r.1, nextId := st.nextId + r.2.length }
    match r.2 with
    | [mem] => (st, some ("Saved to memory (id: " ++ mem.id ++ ")."))
    | mems => (st, some ("Saved " ++ toString mems.length ++ " memory chunks."))
  else if name = "recall" then
    let results := msearch st.memory.memories (argGet arguments "query" "") 5
    if results = [] then (st, some "No relevant memories found.")
    else (st, some (String.intercalate "\n" (results.map recallLine)))
  else if name = "task_complete" then
    let summary := argGet arguments "summary" ""
    let r := addOp st.memory
      (fun i => (env.genId (st.nextId + i), env.genTime (st.nextId + i)))
      summary [] "task"
    let st := { st with
      memory := r.1
      nextId := st.nextId + r.2.length
      events := st.events ++ [UIEvent.showInfo ("Task complete: " ++ summary)] }
    (st, some "Task summary saved to memory.")
  else if APPROVAL_REQUIRED.contains name then
    let desc := approvalDesc name arguments
    let ok := env.approve desc
    let st := { st with events := st.events ++ [UIEvent.askApproval desc ok] }
    if ok then
      let r := executeTool env name arguments
      ({ st with events := st.events ++ r.2 }, some r.1)
    else (st, none)
  else
    let r := executeTool env name arguments
    ({ st with events := st.events ++ r.2 }, some r.1)

/-- Embeds the `for tc in tool_calls` dispatch loop of `Agent.run`.  The
Boolean result records the early `return` taken right after a
`task_complete` result is appended. -/
noncomputable def dispatch (env : Env) : List ToolCall → AgentSt → AgentSt × Bool
  | [], st => (st, false)
  | tc :: rest, st =>
    let st := { st with events := st.events ++ [UIEvent.showToolCall tc.name tc.arguments] }
    let r := executeToolCall env st tc.name tc.arguments
    match r.2 with
    | none =>
      let st := { r.1 with
        history := r.1.history ++
          [{ role := "tool"
             content := "User denied execution of " ++ tc.name ++ "." }]
        events := r.1.events ++ [UIEvent.showInfo "Action denied by user."] }
      dispatch env rest st
    | some result =>
      let st := { r.1 with
        events := r.1.events ++
          [UIEvent.showToolResult tc.name result (pyStartswith result "Error")]
        history := r.1.history ++ [{ role := "tool", content := result }] }
      if tc.name = "task_complete" then (st, true)
      else dispatch env rest st

/-- Embeds `Agent._system_message`: memory context for the user input,
wrapped in the mode-dependent system prompt. -/
noncomputable def systemMessage (st : AgentSt) (user_input : String) : Msg :=
  { role := "system",
    content := buildSystemPrompt (getContext st.memory.memories user_input 5)
      st.planning }

/-- The `max_tool_rounds` default of `Agent.__init__`. -/
def maxToolRounds : Nat := 15

/-- Embeds the `for _ in range(self.max_tool_rounds)` loop of `Agent.run`,
with the remaining round count as the recursion argument; exhausting the
rounds reaches the trailing informational notice. -/
noncomputable def roundLoop (env : Env) (user_input : String) :
    Nat → AgentSt → AgentSt
  | 0, st =>
    { st with events := st.events ++
        [UIEvent.showInfo "Reached maximum tool rounds. Stopping."] }
  | n + 1, st =>
    let messages := systemMessage st user_input :: st.history
    let out := env.backend messages
    let st := { st with events :=
      (st.events ++ [UIEvent.streamStart]) ++ (chunkTexts out.chunks).map UIEvent.streamTok }
    match out.err with
    | some e =>
      { st with events := st.events ++ [UIEvent.streamEnd, UIEvent.showError ("LLM error: " ++ e)] }
    | none =>
      let st := { st with events := st.events ++ [UIEvent.streamEnd] }
      let tool_calls := chunkCalls out.chunks
      let clean_text := cleanText (fullText out.chunks)
      let st := if clean_text ≠ "" ∨ tool_calls ≠ [] then
          { st with history := st.history ++
            [{ role := "assistant", content := clean_text,
               tool_calls := tool_calls }] }
        else st
      if tool_calls = [] then st
      else
        let r := dispatch env tool_calls st
        if r.2 then r.1 else roundLoop env user_input n r.1

/-- Embeds `Agent.run` for one user turn: append the user message, then at
most `maxToolRounds` assemble/dispatch rounds. -/
noncomputable def runAgent (env : Env) (st : AgentSt) (user_input : String) :
    AgentSt :=
  roundLoop env user_input maxToolRounds
    { st with history := st.history ++ [{ role := "user", content := user_input }] }

/-- Python `str.partition(sep)` restricted to the two components the UI code
uses: the text before the first occurrence of `sep` and the text after it
(both empty-compatible; when `sep` does not occur, `before` is the whole
string and `after` is empty). -/
def pyPartition (s sep : String) : String × String :=
  match subFind sep.data s.data with
  | some i => (String.mk (s.data.take i), String.mk (s.data.drop (i + sep.data.length)))
  | none => (s, "")

/-- Python `sep in s` substring containment. -/
def containsSub (sep s : String) : Bool :=
  (subFind sep.data s.data).isSome

/-- The streaming-display state of `CursesUI`: the pending persisted text
buffer, the in-reasoning flag and the reasoning buffer
(`_stream_buf`, `_thinking`, `_think_buf`). -/
structure StreamSt where
  streamBuf : String
  thinking : Bool
  thinkBuf : String
deriving DecidableEq, Repr

/-- The state set by `CursesUI.stream_start`. -/
def streamStartState : StreamSt :=
  { streamBuf := "", thinking := false, thinkBuf := "" }

/-- Embeds `CursesUI.stream_token`: the two-state scanner that routes text
between the persisted stream buffer and the ephemeral reasoning buffer,
handling a `<think>` delimiter split across tokens via the rolling buffer. -/
def uiStreamToken (st : StreamSt) (token : String) : StreamSt :=
  let combined := st.streamBuf ++ token
  if containsSub "<think>" combined && !st.thinking then
    let p := pyPartition combined "<think>"
    { streamBuf := p.1, thinking := true, thinkBuf := p.2 }
  else if st.thinking then
    let tb := st.thinkBuf ++ token
    if containsSub "</think>" tb then
      let p := pyPartition tb "</think>"
      { streamBuf := st.streamBuf ++ p.2, thinking := false, thinkBuf := "" }
    else { st with thinkBuf := tb }
  else { st with streamBuf := combined }

/-- The ephemeral `thinking:` display line built by `CursesUI._render_stream`
while the scanner is inside a reasoning block: last 80 characters of the
reasoning buffer, newlines replaced by spaces, stripped. -/
def renderThinkLine (st : StreamSt) : String :=
  let short := pyStrip (String.mk
    (((st.thinkBuf.data.reverse.take 80).reverse).map
      (fun c => if c = '\n' then ' ' else c)))
  if short ≠ "" then "  thinking: " ++ short ++ "..." else "  thinking..."

-- Sanity checks on the scanner.
example :
    uiStreamToken streamStartState "a<th" =
      { streamBuf := "a<th", thinking := false, thinkBuf := "" } := by decide
example :
    uiStreamToken { streamBuf := "a<th", thinking := false, thinkBuf := "" }
        "ink>secret</think>b" =
      { streamBuf := "a", thinking := true, thinkBuf := "secret</think>b" } := by
  decide

/-! ### Helper lemmas about the memory store -/

/-- An empty id prefix matches every id (Python `s.startswith("")`). -/
theorem pyStartswith_empty (s : String) : pyStartswith s "" = true := by
  simp [pyStartswith]

/-- Behaviour of `msearch` on a non-empty store when the query has no
tokens: the first `top_k` records are returned. -/
theorem msearch_no_tokens (memories : List MemRec) (q : String) (k : Nat)
    (hne : memories ≠ []) (hq : tokenize q = []) :
    msearch memories q k = memories.take k := by
  simp [msearch, hne, hq]

/-- Characterization of `mdelete`: the flag and the removal of the first
match. -/
theorem mdelete_cases (memories : List MemRec) (pfx : String) :
    (memories.filter (fun m => pyStartswith m.id pfx) = [] →
      mdelete memories pfx = (memories, false)) ∧
    (memories.filter (fun m => pyStartswith m.id pfx) ≠ [] →
      (mdelete memories pfx).2 = true ∧
      ∃ l₁ m l₂, memories = l₁ ++ m :: l₂ ∧
        (∀ x ∈ l₁, pyStartswith x.id pfx = false) ∧
        pyStartswith m.id pfx = true ∧
        (mdelete memories pfx).1 = l₁ ++ l₂) := by
  induction memories with
  | nil => exact ⟨fun _ => rfl, fun h => absurd rfl h⟩
  | cons m rest ih =>
    by_cases hm : pyStartswith m.id pfx
    · refine ⟨fun h => ?_, fun _ => ?_⟩
      · exfalso
        have : m ∈ List.filter (fun m => pyStartswith m.id pfx) (m :: rest) :=
          List.mem_filter.2 ⟨List.mem_cons_self m rest, hm⟩
        simp [h] at this
      · refine ⟨by simp [mdelete, hm], [], m, rest, rfl, by simp, hm, ?_⟩
        simp [mdelete, hm]
    · have hfil : List.filter (fun m => pyStartswith m.id pfx) (m :: rest) =
        List.filter (fun m => pyStartswith m.id pfx) rest := by
        simp [List.filter_cons, hm]
    
      refine ⟨fun h => ?_, fun h => ?_⟩
      · have := ih.1 (by rw [← hfil]; exact h)
        simp [mdelete, hm, this]
      · obtain ⟨hflag, l₁, mm, l₂, heq, hl₁, hmm, hres⟩ :=
          ih.2 (by rw [hfil] at h; exact h)
        refine ⟨by simp [mdelete, hm, hflag], m :: l₁, mm, l₂, by simp [heq], ?_,
          hmm, ?_⟩
        · intro x hx
          rcases List.mem_cons.1 hx with h | h
          · subst h; exact eq_false_of_ne_true hm
          · exact hl₁ x h
        · simp [mdelete, hm, hres]

/-- Concrete record used in witnesses and counterexamples. -/
def recA : MemRec :=
  { id := "id-a", content := "alpha", tags := [], type := "task",
    timestamp := "2024-01-01T00:00:00+00:00" }

/-- Second concrete record used in witnesses and counterexamples. -/
def recB : MemRec :=
  { id := "id-b", content := "beta", tags := [], type := "task",
    timestamp := "2024-01-02T00:00:00+00:00" }

/-! ### Claim C1 -/

/-- Claim C1, counterexample: on the store `[recA, recB]` (recB inserted
most recently) a query with no tokens and `k = 1` returns the oldest record
`recA`, not the most recently inserted record `recB` that the claim
predicts. -/
theorem search_no_tokens_not_recent_cex :
    msearch [recA, recB] "" 1 = [recA] ∧ msearch [recA, recB] "" 1 ≠ [recB] := by
  have h := msearch_no_tokens [recA, recB] "" 1 (by decide) (by decide)
  refine ⟨by rw [h]; rfl, by rw [h]; decide⟩

/-- Claim C1 as amended: on a non-empty store, a query that tokenizes to no
terms returns the first `min(k, size)` records in insertion order (the
oldest ones, oldest first) — not the most recent ones. -/
theorem search_no_tokens_take (memories : List MemRec) (q : String) (k : Nat)
    (hne : memories ≠ []) (hq : tokenize q = []) :
    msearch memories q k = memories.take k :=
  msearch_no_tokens memories q k hne hq

/-- Witness for `search_no_tokens_take` at a concrete store and query. -/
theorem search_no_tokens_take_witness :
    (([recA, recB] : List MemRec) ≠ [] ∧ tokenize "" = []) ∧
      msearch [recA, recB] "" 2 = List.take 2 [recA, recB] :=
  ⟨⟨by decide, by decide⟩,
    search_no_tokens_take [recA, recB] "" 2 (by decide) (by decide)⟩

/-! ### Claim C8 -/

/-- Claim C8: `delete(prefix)` is a no-op returning false when no id
matches; when matches exist it returns true and removes exactly the first
matching record in store order; in particular when exactly one id matches,
exactly that one record is removed. -/
theorem delete_spec (memories : List MemRec) (pfx : String) :
    (memories.filter (fun m => pyStartswith m.id pfx) = [] →
      mdelete memories pfx = (memories, false)) ∧
    (memories.filter (fun m => pyStartswith m.id pfx) ≠ [] →
      (mdelete memories pfx).2 = true ∧
      ∃ l₁ m l₂, memories = l₁ ++ m :: l₂ ∧
        (∀ x ∈ l₁, pyStartswith x.id pfx = false) ∧
        pyStartswith m.id pfx = true ∧
        (mdelete memories pfx).1 = l₁ ++ l₂) ∧
    ((memories.filter (fun m => pyStartswith m.id pfx)).length = 1 →
      (mdelete memories pfx).2 = true ∧
      (mdelete memories pfx).1.length + 1 = memories.length) := by
  refine ⟨(mdelete_cases memories pfx).1, (mdelete_cases memories pfx).2, ?_⟩
  intro hone
  have hne : memories.filter (fun m => pyStartswith m.id pfx) ≠ [] := by
    intro h
    rw [h] at hone
    simp at hone
  obtain ⟨hflag, l₁, m, l₂, heq, _, _, hres⟩ := (mdelete_cases memories pfx).2 hne
  refine ⟨hflag, ?_⟩
  rw [hres, heq]
  simp
  omega

/-- Witness for `delete_spec`: a store where the second and third ids share
the prefix; only the second record (the first match) is removed. -/
theorem delete_spec_witness :
    (([{ id := "xa", content := "c1", tags := [], type := "t", timestamp := "s" },
       { id := "ba", content := "c2", tags := [], type := "t", timestamp := "s" },
       { id := "bb", content := "c3", tags := [], type := "t", timestamp := "s" }]
        : List MemRec).filter (fun m => pyStartswith m.id "b") ≠ []) ∧
    (mdelete [{ id := "xa", content := "c1", tags := [], type := "t", timestamp := "s" },
       { id := "ba", content := "c2", tags := [], type := "t", timestamp := "s" },
       { id := "bb", content := "c3", tags := [], type := "t", timestamp := "s" }] "b").2
      = true :=
  ⟨by decide, ((delete_spec _ "b").2.1 (by decide)).1⟩

/-! ### Claim C10 -/

/-- Claim C10: deleting with the empty prefix removes the first record of a
non-empty store and returns true; on the empty store it is a no-op
returning false. -/
theorem delete_empty_id_spec (memories : List MemRec) :
    (memories = [] → mdelete memories "" = ([], false)) ∧
    (∀ m rest, memories = m :: rest → mdelete memories "" = (rest, true)) := by
  constructor
  · intro h; subst h; rfl
  · intro m rest h
    subst h
    simp [mdelete, pyStartswith_empty]

/-- Witness for `delete_empty_id_spec` on the empty store and on `[recA]`. -/
theorem delete_empty_id_spec_witness :
    mdelete ([] : List MemRec) "" = ([], false) ∧
      mdelete [recA] "" = ([], true) :=
  ⟨(delete_empty_id_spec []).1 rfl,
   (delete_empty_id_spec [recA]).2 recA [] rfl⟩

/-! ### Claim C9 -/

/-- Claim C9: after `add` (any content) and after a `delete` that removed a
record, the backing file content is exactly the full serialization of the
current in-memory record list, one record per line; all records created by
`add` are part of the in-memory list and hence of that snapshot. -/
theorem persistence_spec (st : StoreState) (meta : Nat → String × String)
    (content : String) (tags : List String) (mem_type : String) (pfx : String) :
    ((addOp st meta content tags mem_type).1.memories =
        st.memories ++ (addOp st meta content tags mem_type).2) ∧
    ((addOp st meta content tags mem_type).1.disk =
        diskContents (addOp st meta content tags mem_type).1.memories) ∧
    ((deleteOp st pfx).2 = true →
      (deleteOp st pfx).1.disk = diskContents (deleteOp st pfx).1.memories) := by
  refine ⟨rfl, rfl, ?_⟩
  intro h
  by_cases hr : (mdelete st.memories pfx).2
  · simp [deleteOp, hr, saveOp]
  · simp [deleteOp, hr] at h

/-- Witness for `persistence_spec`: a concrete store on which the delete
succeeds. -/
theorem persistence_spec_witness :
    (deleteOp { memories := [recA], disk := "stale" } "id").2 = true ∧
      (deleteOp { memories := [recA], disk := "stale" } "id").1.disk =
        diskContents (deleteOp { memories := [recA], disk := "stale" } "id").1.memories :=
  ⟨by decide,
   (persistence_spec { memories := [recA], disk := "stale" } (fun _ => ("", ""))
      "" [] "task" "id").2.2 (by decide)⟩

/-! ### Round trip between word splitting and joining -/

/-- Scanning a run of characters that all satisfy `p` accumulates them onto
the current run. -/
theorem splitRunsAux_append_run (p : Char → Bool) (t : List Char)
    (hp : ∀ c ∈ t, p c = true) (cur cs : List Char) :
    splitRunsAux p cur (t ++ cs) = splitRunsAux p (t.reverse ++ cur) cs := by
  induction t generalizing cur with
  | nil => simp
  | cons c t ih =>
    have hc : p c = true := hp c (List.mem_cons_self c t)
    have ht : ∀ x ∈ t, p x = true := fun x hx => hp x (List.mem_cons_of_mem c hx)
    rw [List.cons_append]
    simp only [splitRunsAux, hc, if_true]
    rw [ih ht (c :: cur)]
    simp

/-- A separator character flushes a non-empty current run. -/
theorem splitRunsAux_sep (p : Char → Bool) (s : Char) (hs : p s = false)
    (cur cs : List Char) (hcur : cur ≠ []) :
    splitRunsAux p cur (s :: cs) = cur.reverse :: splitRunsAux p [] cs := by
  cases cur with
  | nil => exact absurd rfl hcur
  | cons hd tl => simp [splitRunsAux, hs]

/-- End of input flushes a non-empty current run. -/
theorem splitRunsAux_last (p : Char → Bool) (cur : List Char) (hcur : cur ≠ []) :
    splitRunsAux p cur [] = [cur.reverse] := by
  cases cur with
  | nil => exact absurd rfl hcur
  | cons hd tl => rfl

/-- Splitting the space-join of non-empty, separator-free tokens recovers
exactly the tokens. -/
theorem splitRunsAux_joinWords (p : Char → Bool) (hsp : p ' ' = false) :
    ∀ tokens : List (List Char), (∀ t ∈ tokens, t ≠ []) →
      (∀ t ∈ tokens, ∀ c ∈ t, p c = true) →
      splitRunsAux p [] (joinWords tokens) = tokens
  | [], _, _ => rfl
  | [t], hne, hp => by
    have h1 : joinWords [t] = t ++ [] := by simp [joinWords]
    rw [h1, splitRunsAux_append_run p t (hp t (by simp)) [] []]
    rw [splitRunsAux_last p _ (by simp [hne t (by simp)])]
    simp
  | t :: t' :: ts, hne, hp => by
    have h1 : joinWords (t :: t' :: ts) = t ++ ' ' :: joinWords (t' :: ts) := rfl
    rw [h1, splitRunsAux_append_run p t (hp t (by simp)) []]
    rw [List.append_nil]
    rw [splitRunsAux_sep p ' ' hsp _ _ (by simp [hne t (by simp)])]
    rw [splitRunsAux_joinWords p hsp (t' :: ts)
      (fun x hx => hne x (List.mem_cons_of_mem _ hx))
      (fun x hx => hp x (List.mem_cons_of_mem _ hx))]
    simp

/-- Every token produced by the run splitter is non-empty and consists of
characters satisfying `p`. -/
theorem splitRunsAux_sound (p : Char → Bool) :
    ∀ (cs cur : List Char), (∀ c ∈ cur, p c = true) →
      ∀ t ∈ splitRunsAux p cur cs, t ≠ [] ∧ ∀ c ∈ t, p c = true
  | [], cur, hcur, t, ht => by
    cases hc : cur with
    | nil => subst hc; simp [splitRunsAux] at ht
    | cons hd tl =>
      subst hc
      simp only [splitRunsAux, List.isEmpty_cons, if_false, Bool.false_eq_true,
        reduceIte, List.mem_singleton] at ht
      subst ht
      exact ⟨by simp, fun c hc => hcur c (List.mem_reverse.1 hc)⟩
  | c :: cs, cur, hcur, t, ht => by
    by_cases h : p c = true
    · refine splitRunsAux_sound p cs (c :: cur) ?_ t ?_
      · intro x hx
        rcases List.mem_cons.1 hx with h' | h'
        · subst h'; exact h
        · exact hcur x h'
      · simpa [splitRunsAux, h] using ht
    · cases hc : cur with
      | nil =>
        subst hc
        refine splitRunsAux_sound p cs [] (by simp) t ?_
        simpa [splitRunsAux, h] using ht
      | cons hd tl =>
        subst hc
        rw [splitRunsAux_sep p c (eq_false_of_ne_true h) _ _ (by simp)] at ht
        rcases List.mem_cons.1 ht with h' | h'
        · subst h'
          exact ⟨by simp, fun x hx => hcur x (List.mem_reverse.1 hx)⟩
        · exact splitRunsAux_sound p cs [] (by simp) t h'

/-- String-level round trip: `text.split()` applied to `" ".join(words)`
recovers the words, provided each word is non-empty and whitespace-free. -/
theorem pyWords_spaceJoin (ws : List String)
    (h1 : ∀ w ∈ ws, w.data ≠ [])
    (h2 : ∀ w ∈ ws, ∀ c ∈ w.data, pyIsSpace c = false) :
    pyWords (spaceJoin ws) = ws := by
  unfold pyWords spaceJoin
  rw [show (String.mk (joinWords (ws.map String.data))).data =
      joinWords (ws.map String.data) from rfl]
  rw [splitRunsAux_joinWords _ (by decide) (ws.map String.data) ?hne ?hp]
  · rw [List.map_map]
    exact List.map_id'' (fun w => rfl) ws
  case hne =>
    intro t ht
    obtain ⟨w, hw, rfl⟩ := List.mem_map.1 ht
    exact h1 w hw
  case hp =>
    intro t ht c hc
    obtain ⟨w, hw, rfl⟩ := List.mem_map.1 ht
    simp [h2 w hw c hc]

/-- Words produced by `pyWords` are non-empty and whitespace-free. -/
theorem pyWords_sound (s : String) :
    ∀ w ∈ pyWords s, w.data ≠ [] ∧ ∀ c ∈ w.data, pyIsSpace c = false := by
  intro w hw
  unfold pyWords at hw
  obtain ⟨t, ht, rfl⟩ := List.mem_map.1 hw
  have h := splitRunsAux_sound _ s.data [] (by simp) t ht
  refine ⟨by simpa using h.1, ?_⟩
  intro c hc
  have h2 := h.2 c (by simpa using hc)
  simpa using h2

/-! ### Chunking lemmas -/

/-- Number of windows produced by the chunk loop from start index `i`. -/
theorem chunkLoop_length (words : List String) (i : Nat) :
    (chunkLoop words i).length = (words.length - i + 449) / 450 := by
  induction i using chunkLoop.induct words with
  | case1 i hi ih =>
    rw [chunkLoop, dif_pos hi]
    simp only [List.length_cons, ih]
    omega
  | case2 i hi =>
    rw [chunkLoop, dif_neg hi]
    simp only [List.length_nil]
    omega

/-- Content of the j-th window produced by the chunk loop. -/
theorem chunkLoop_getElem (words : List String) (i j : Nat)
    (h : j < (chunkLoop words i).length) :
    (chunkLoop words i)[j]? =
      some (spaceJoin ((words.drop (i + 450 * j)).take 500)) := by
  induction j generalizing i with
  | zero =>
    have hi : i < words.length := by
      by_contra hge
      rw [chunkLoop, dif_neg hge] at h
      simp at h
    rw [chunkLoop, dif_pos hi]
    simp
  | succ j ih =>
    have hi : i < words.length := by
      by_contra hge
      rw [chunkLoop, dif_neg hge] at h
      simp at h
    have h' : j < (chunkLoop words (i + 450)).length := by
      rw [chunkLoop, dif_pos hi] at h
      simp only [List.length_cons] at h
      omega
    rw [chunkLoop, dif_pos hi]
    simp only [List.getElem?_cons_succ]
    have harith : i + 450 + 450 * j = i + 450 * (j + 1) := by ring
    rw [ih (i + 450) h', harith]

/-- The word list of the j-th window taken from the words of the text. -/
theorem pyWords_chunk_slice (text : String) (a b : Nat) :
    pyWords (spaceJoin (((pyWords text).drop a).take b)) =
      ((pyWords text).drop a).take b := by
  refine pyWords_spaceJoin _ ?_ ?_
  · intro w hw
    exact (pyWords_sound text w
      (List.mem_of_mem_drop (List.mem_of_mem_take hw))).1
  · intro w hw
    exact (pyWords_sound text w
      (List.mem_of_mem_drop (List.mem_of_mem_take hw))).2

/-! ### Claim C2 -/

/-- Claim C2 as amended: content of at most 500 words yields one unmodified
record; content of more than 500 words yields exactly
`ceil(wordCount / 450)` records (not `ceil((wordCount - 500) / 450) + 1`),
each at most 500 words, where record `j` carries words
`[450 j, 450 j + 500)`; hence two consecutive records drawn from full
500-word windows overlap in exactly 50 words, while the final record may be
shorter and overlap its predecessor in fewer than 50 words.  The records
created by `add` carry exactly the chunks as content. -/
theorem chunk_spec_amended (text : String) :
    ((pyWords text).length ≤ 500 → chunk text = [text]) ∧
    (∀ c ∈ chunk text, (pyWords c).length ≤ 500) ∧
    (500 < (pyWords text).length →
      ((chunk text).length = ((pyWords text).length + 449) / 450) ∧
      (∀ j, j < (chunk text).length →
        (chunk text)[j]? =
          some (spaceJoin (((pyWords text).drop (450 * j)).take 500))) ∧
      (∀ j, 450 * j + 500 ≤ (pyWords text).length →
        ∃ c c', (chunk text)[j]? = some c ∧ (chunk text)[j + 1]? = some c' ∧
          (pyWords c).drop 450 = (pyWords c').take 50 ∧
          ((pyWords c).drop 450).length = 50)) ∧
    (∀ st meta tags mem_type,
      (addOp st meta text tags mem_type).2.map MemRec.content = chunk text) := by
  by_cases hn : (pyWords text).length ≤ 500
  case pos =>
    have hch : chunk text = [text] := by simp [chunk, hn]
    refine ⟨fun _ => hch, ?_, fun h => absurd h (by omega), ?_⟩
    · intro c hc
      rw [hch] at hc
      rw [List.mem_singleton.1 hc]
      exact hn
    · intro st meta tags mem_type
      simp only [addOp, List.map_map]
      exact List.enum_map_snd (chunk text)
  case neg =>
    push_neg at hn
    have hch : chunk text = chunkLoop (pyWords text) 0 := by
      simp [chunk, Nat.not_le.2 hn]
    have hget : ∀ j, j < (chunk text).length →
        (chunk text)[j]? =
          some (spaceJoin (((pyWords text).drop (450 * j)).take 500)) := by
      intro j hj
      rw [hch] at hj ⊢
      have := chunkLoop_getElem (pyWords text) 0 j hj
      simpa using this
    have hlen : (chunk text).length = ((pyWords text).length + 449) / 450 := by
      rw [hch, chunkLoop_length]
      simp
    refine ⟨fun h => absurd h (by omega), ?_, fun _ => ⟨hlen, hget, ?_⟩, ?_⟩
    · intro c hc
      obtain ⟨j, hj, hcj⟩ := List.getElem_of_mem hc
      have := hget j hj
      rw [List.getElem?_eq_getElem hj, hcj] at this
      obtain rfl : c = spaceJoin (((pyWords text).drop (450 * j)).take 500) :=
        Option.some.inj this
      rw [pyWords_chunk_slice]
      simp
    · intro j hjfull
      have hj : j < (chunk text).length := by rw [hlen]; omega
      have hj1 : j + 1 < (chunk text).length := by rw [hlen]; omega
      refine ⟨_, _, hget j hj, hget (j + 1) hj1, ?_, ?_⟩
      · rw [pyWords_chunk_slice, pyWords_chunk_slice]
        rw [List.drop_take, List.take_take, List.drop_drop]
        congr 2
      · rw [pyWords_chunk_slice]
        rw [List.length_drop, List.length_take, List.length_drop]
        omega
    · intro st meta tags mem_type
      simp only [addOp, List.map_map]
      exact List.enum_map_snd (chunk text)

/-- Concrete 920-word content used to refute the chunk-count formula of
claim C2. -/
def tBig : String := spaceJoin (List.replicate 920 "w")

/-- The 920 words of `tBig`. -/
theorem pyWords_tBig : pyWords tBig = List.replicate 920 "w" := by
  refine pyWords_spaceJoin _ ?_ ?_
  · intro w hw
    rw [List.eq_of_mem_replicate hw]
    decide
  · intro w hw
    rw [List.eq_of_mem_replicate hw]
    decide

/-- Claim C2, counterexample: on 920-word content the code produces 3
records while the claimed formula `ceil((wordCount - 500) / 450) + 1` gives
2, and the final record has only 20 words — entirely contained in its
predecessor, so the boundary overlap is 20 words rather than the claimed
exactly 50. -/
theorem chunk_count_cex :
    (chunk tBig).length = 3 ∧
    ((pyWords tBig).length - 500 + 449) / 450 + 1 = 2 ∧
    (chunk tBig).length ≠ ((pyWords tBig).length - 500 + 449) / 450 + 1 ∧
    ∃ c, (chunk tBig)[2]? = some c ∧ (pyWords c).length = 20 := by
  have hlen : (pyWords tBig).length = 920 := by
    rw [pyWords_tBig, List.length_replicate]
  have hch : chunk tBig = chunkLoop (pyWords tBig) 0 := by
    simp [chunk, hlen]
  have hcl : (chunk tBig).length = 3 := by
    rw [hch, chunkLoop_length, hlen]
  refine ⟨hcl, by rw [hlen], by rw [hcl, hlen]; decide, ?_⟩
  have h2 : (2 : Nat) < (chunk tBig).length := by omega
  rw [hch] at h2 ⊢
  have h3 := chunkLoop_getElem (pyWords tBig) 0 2 h2
  rw [show (0 + 450 * 2 : Nat) = 900 from by norm_num] at h3
  refine ⟨_, h3, ?_⟩
  rw [pyWords_chunk_slice]
  rw [List.length_take, List.length_drop, hlen]
  omega

/-- Witness for `chunk_spec_amended`: the short branch on a 2-word text and
the record-count conclusion on the 920-word text. -/
theorem chunk_spec_amended_witness :
    ((pyWords "a b").length ≤ 500 ∧ chunk "a b" = ["a b"]) ∧
    (500 < (pyWords tBig).length ∧
      (chunk tBig).length = ((pyWords tBig).length + 449) / 450) :=
  ⟨⟨by decide, (chunk_spec_amended "a b").1 (by decide)⟩,
   ⟨by rw [pyWords_tBig, List.length_replicate]; norm_num,
    ((chunk_spec_amended tBig).2.2.1
      (by rw [pyWords_tBig, List.length_replicate]; norm_num)).1⟩⟩

/-! ### Stable descending sort lemmas -/

/-- Inserting permutes. -/
theorem insertDesc_perm (x : ℝ × MemRec) (l : List (ℝ × MemRec)) :
    List.Perm (insertDesc x l) (x :: l) := by
  induction l with
  | nil => rfl
  | cons y rest ih =>
    rw [insertDesc]
    by_cases h : y.1 ≤ x.1
    · rw [if_pos h]
    · rw [if_neg h]
      exact (ih.cons y).trans (List.Perm.swap x y rest)

/-- Sorting permutes. -/
theorem sortDesc_perm (l : List (ℝ × MemRec)) : List.Perm (sortDesc l) l := by
  induction l with
  | nil => rfl
  | cons x rest ih => exact (insertDesc_perm x (sortDesc rest)).trans (ih.cons x)

/-- Inserting into a list sorted by non-increasing key keeps it sorted. -/
theorem insertDesc_pairwise (x : ℝ × MemRec) (l : List (ℝ × MemRec))
    (hl : l.Pairwise (fun a b => b.1 ≤ a.1)) :
    (insertDesc x l).Pairwise (fun a b => b.1 ≤ a.1) := by
  induction l with
  | nil => simp [insertDesc]
  | cons y rest ih =>
    rw [insertDesc]
    by_cases h : y.1 ≤ x.1
    · rw [if_pos h]
      refine List.Pairwise.cons ?_ hl
      intro z hz
      rcases List.mem_cons.1 hz with h' | h'
      · rw [h']; exact h
      · exact le_trans (List.rel_of_pairwise_cons hl h') h
    · rw [if_neg h]
      refine List.Pairwise.cons ?_ (ih (List.Pairwise.of_cons hl))
      intro z hz
      have hz' := (insertDesc_perm x rest).mem_iff.1 hz
      rcases List.mem_cons.1 hz' with h' | h'
      · rw [h']; exact le_of_not_le h
      · exact List.rel_of_pairwise_cons hl h'

/-- Sorting yields a list with non-increasing keys. -/
theorem sortDesc_pairwise (l : List (ℝ × MemRec)) :
    (sortDesc l).Pairwise (fun a b => b.1 ≤ a.1) := by
  induction l with
  | nil => simp [sortDesc]
  | cons x rest ih => exact insertDesc_pairwise x (sortDesc rest) ih

/-- Stability of insertion, expressed through key filtering: the sublist of
entries carrying a fixed key is preserved up to the inserted element going
first among the keys it ties with. -/
theorem insertDesc_filter_key (s : ℝ) (x : ℝ × MemRec) (l : List (ℝ × MemRec)) :
    (insertDesc x l).filter (fun p => decide (p.1 = s)) =
      if x.1 = s then x :: l.filter (fun p => decide (p.1 = s))
      else l.filter (fun p => decide (p.1 = s)) := by
  induction l with
  | nil =>
    rw [insertDesc]
    by_cases h : x.1 = s
    · simp [List.filter_cons, h]
    · simp [List.filter_cons, h]
  | cons y rest ih =>
    rw [insertDesc]
    by_cases h : y.1 ≤ x.1
    · rw [if_pos h]
      by_cases hx : x.1 = s
      · simp [List.filter_cons, hx]
      · simp [List.filter_cons, hx]
    · rw [if_neg h]
      by_cases hx : x.1 = s
      · have hy : ¬ y.1 = s := by
          intro hy
          exact h (le_of_eq (hy.trans hx.symm))
        rw [if_pos hx]
        rw [List.filter_cons, List.filter_cons, ih, if_pos hx]
        simp [hy]
      · rw [if_neg hx]
        rw [List.filter_cons, List.filter_cons, ih, if_neg hx]

/-- Stability of the sort, expressed through key filtering: entries carrying
a fixed key appear in the sorted output in their original order. -/
theorem sortDesc_filter_key (s : ℝ) (l : List (ℝ × MemRec)) :
    (sortDesc l).filter (fun p => decide (p.1 = s)) =
      l.filter (fun p => decide (p.1 = s)) := by
  induction l with
  | nil => rfl
  | cons x rest ih =>
    rw [sortDesc, insertDesc_filter_key, List.filter_cons]
    by_cases hx : x.1 = s
    · rw [if_pos hx, ih]
      simp [hx]
    · rw [if_neg hx, ih]
      simp [hx]

/-- Unfolding of `msearch` in the scored branch. -/
theorem msearch_eq_scored (memories : List MemRec) (q : String) (k : Nat)
    (hne : ¬ memories = []) (hq : ¬ tokenize q = []) :
    msearch memories q k =
      ((sortDesc ((memories.map (fun m =>
          (memScore memories.length (dfOf memories) (tokenize q) m, m))).filter
            (fun p => decide (0 < p.1)))).take k).map Prod.snd := by
  simp only [msearch, if_neg hne, if_neg hq]

/-- Every scored entry pairs a record of the store with its score, and only
positive scores pass the filter. -/
theorem scored_shape (memories : List MemRec) (sc : MemRec → ℝ) :
    ∀ p ∈ (memories.map (fun m => (sc m, m))).filter (fun p => decide (0 < p.1)),
      p.1 = sc p.2 ∧ p.2 ∈ memories ∧ 0 < p.1 := by
  intro p hp
  rw [List.mem_filter] at hp
  obtain ⟨hp1, hp2⟩ := hp
  obtain ⟨m, hm, rfl⟩ := List.mem_map.1 hp1
  exact ⟨rfl, hm, of_decide_eq_true hp2⟩

/-- Record-level key filtering commutes with projecting scored pairs. -/
theorem filter_map_snd (sc : MemRec → ℝ) (s : ℝ) :
    ∀ l : List (ℝ × MemRec), (∀ p ∈ l, p.1 = sc p.2) →
      (l.map Prod.snd).filter (fun m => decide (sc m = s)) =
        (l.filter (fun p => decide (p.1 = s))).map Prod.snd
  | [], _ => rfl
  | p :: rest, h => by
    have hk : p.1 = sc p.2 := h p (List.mem_cons_self p rest)
    have ih := filter_map_snd sc s rest (fun x hx => h x (List.mem_cons_of_mem p hx))
    rw [List.map_cons, List.filter_cons, List.filter_cons, hk]
    by_cases hs : sc p.2 = s
    · have hd : decide (sc p.2 = s) = true := decide_eq_true hs
      rw [if_pos hd, if_pos hd, List.map_cons, ih]
    · have hd : ¬ decide (sc p.2 = s) = true := by
        simp [hs]
      rw [if_neg hd, if_neg hd, ih]

/-- Claim C3 as amended: with a non-empty tokenization, `search(q, k)`
returns at most `k` records, all members of the store, ordered
non-increasingly by the score that sums, over each occurrence of a query
token (duplicated query tokens counted per occurrence, as the code iterates
the token list), the contribution
`tf/total * ln((N + 1)/(df + 1))` of tokens the record shares; records with
score zero are excluded, and records with equal score keep their original
insertion order. -/
theorem search_ranking_spec (memories : List MemRec) (q : String) (k : Nat)
    (hq : ¬ tokenize q = []) :
    (msearch memories q k).length ≤ k ∧
    (∀ m ∈ msearch memories q k, m ∈ memories) ∧
    (msearch memories q k).Pairwise (fun a b =>
      memScore memories.length (dfOf memories) (tokenize q) b ≤
        memScore memories.length (dfOf memories) (tokenize q) a) ∧
    (∀ m ∈ msearch memories q k,
      0 < memScore memories.length (dfOf memories) (tokenize q) m) ∧
    (∀ s : ℝ,
      (msearch memories q k).filter (fun m =>
        decide (memScore memories.length (dfOf memories) (tokenize q) m = s)) <+:
      memories.filter (fun m =>
        decide (memScore memories.length (dfOf memories) (tokenize q) m = s))) := by
  by_cases hne : memories = []
  · subst hne
    refine ⟨by simp [msearch], by simp [msearch], by simp [msearch],
      by simp [msearch], fun s => by simp [msearch]⟩
  · have heq := msearch_eq_scored memories q k hne hq
    set sc := memScore memories.length (dfOf memories) (tokenize q) with hsc
    set scored := (memories.map (fun m => (sc m, m))).filter
      (fun p => decide (0 < p.1)) with hscored
    have hshape := scored_shape memories sc
    rw [← hscored] at hshape
    have hsubL : List.Sublist ((sortDesc scored).take k) (sortDesc scored) :=
      List.take_sublist k (sortDesc scored)
    have hLmem : ∀ p ∈ (sortDesc scored).take k, p ∈ scored := by
      intro p hp
      exact (sortDesc_perm scored).mem_iff.1 (hsubL.subset hp)
    refine ⟨?_, ?_, ?_, ?_, ?_⟩
    · rw [heq, List.length_map, List.length_take]
      exact min_le_left _ _
    · intro m hm
      rw [heq] at hm
      obtain ⟨p, hpL, rfl⟩ := List.mem_map.1 hm
      exact (hshape p (hLmem p hpL)).2.1
    · rw [heq, List.pairwise_map]
      refine List.Pairwise.imp_of_mem ?_
        (List.Pairwise.sublist hsubL (sortDesc_pairwise scored))
      intro a b ha hb hle
      rw [← (hshape a (hLmem a ha)).1, ← (hshape b (hLmem b hb)).1]
      exact hle
    · intro m hm
      rw [heq] at hm
      obtain ⟨p, hpL, rfl⟩ := List.mem_map.1 hm
      rw [← (hshape p (hLmem p hpL)).1]
      exact (hshape p (hLmem p hpL)).2.2
    · intro s
      rw [heq]
      rw [filter_map_snd sc s ((sortDesc scored).take k)
        (fun p hp => (hshape p (hLmem p hp)).1)]
      by_cases hs : 0 < s
      · have hpre1 : ((sortDesc scored).take k).filter
            (fun p => decide (p.1 = s)) <+:
            (sortDesc scored).filter (fun p => decide (p.1 = s)) :=
          (List.take_prefix k (sortDesc scored)).filter _
        rw [sortDesc_filter_key] at hpre1
        have hval : (scored.filter (fun p => decide (p.1 = s))).map Prod.snd =
            memories.filter (fun m => decide (sc m = s)) := by
          rw [hscored, List.filter_filter, List.filter_map, List.map_map]
          have hcomp : Prod.snd ∘ (fun m : MemRec => (sc m, m)) = id := rfl
          rw [hcomp, List.map_id]
          refine List.filter_congr ?_
          intro m _
          by_cases h : sc m = s
          · have h0 : 0 < sc m := by rw [h]; exact hs
            simp [h, h0, hs]
          · simp [h]
        rw [← hval]
        exact hpre1.map Prod.snd
      · have hnil : ((sortDesc scored).take k).filter
            (fun p => decide (p.1 = s)) = [] := by
          rw [List.filter_eq_nil_iff]
          intro p hp
          have h0 := (hshape p (hLmem p hp)).2.2
          intro hd
          have := of_decide_eq_true hd
          rw [this] at h0
          exact hs h0
        rw [hnil]
        exact List.nil_prefix

/-- Witness for `search_ranking_spec` at a concrete store and query. -/
theorem search_ranking_spec_witness :
    (¬ tokenize "alpha" = []) ∧
    ((msearch [recA] "alpha" 5).length ≤ 5 ∧
      ∀ m ∈ msearch [recA] "alpha" 5, m ∈ [recA]) :=
  ⟨by decide,
   ⟨(search_ranking_spec [recA] "alpha" 5 (by decide)).1,
    (search_ranking_spec [recA] "alpha" 5 (by decide)).2.1⟩⟩

/-- First record of the claim C3 counterexample store: two query-token
occurrences of `a` hit it, each with term frequency 1/2. -/
def cm1 : MemRec :=
  { id := "m1", content := "a x", tags := [], type := "task", timestamp := "t1" }

/-- Second record of the claim C3 counterexample store: one query-token
occurrence of `b` hits it with term frequency 1. -/
def cm2 : MemRec :=
  { id := "m2", content := "b", tags := [], type := "task", timestamp := "t2" }

/-- Score of `cm1` under the code (per query-token occurrence): the
duplicated query token `a` contributes twice. -/
theorem memScore_cm1 :
    memScore 2 (dfOf [cm1, cm2]) ["a", "a", "b"] cm1 = Real.log (3 / 2) := by
  simp only [memScore]
  rw [show tokenize cm1.content = ["a", "x"] from by decide]
  simp only [List.foldl_cons, List.foldl_nil]
  rw [if_pos (show "a" ∈ dtokens cm1 from by decide),
      if_pos (show "a" ∈ dtokens cm1 from by decide),
      if_neg (show ¬ "b" ∈ dtokens cm1 from by decide)]
  rw [show dfOf [cm1, cm2] "a" = 1 from by decide]
  rw [show (["a", "x"] : List String).count "a" = 1 from by decide]
  rw [show (if (["a", "x"] : List String).length = 0 then 1
      else (["a", "x"] : List String).length) = 2 from by decide]
  push_cast
  rw [show ((2:ℝ) + 1) / (1 + 1) = 3 / 2 from by norm_num]
  ring

/-- Score of `cm2` under the code. -/
theorem memScore_cm2 :
    memScore 2 (dfOf [cm1, cm2]) ["a", "a", "b"] cm2 = Real.log (3 / 2) := by
  simp only [memScore]
  rw [show tokenize cm2.content = ["b"] from by decide]
  simp only [List.foldl_cons, List.foldl_nil]
  rw [if_neg (show ¬ "a" ∈ dtokens cm2 from by decide),
      if_neg (show ¬ "a" ∈ dtokens cm2 from by decide),
      if_pos (show "b" ∈ dtokens cm2 from by decide)]
  rw [show dfOf [cm1, cm2] "b" = 1 from by decide]
  rw [show (["b"] : List String).count "b" = 1 from by decide]
  rw [show (if (["b"] : List String).length = 0 then 1
      else (["b"] : List String).length) = 1 from by decide]
  push_cast
  rw [show ((2:ℝ) + 1) / (1 + 1) = 3 / 2 from by norm_num]
  ring

/-- Score of `cm1` under the wording of the specification (distinct shared
terms): the duplicated query token `a` contributes once. -/
theorem claimScore_cm1 :
    claimScore 2 (dfOf [cm1, cm2]) ["a", "a", "b"] cm1 =
      1 / 2 * Real.log (3 / 2) := by
  rw [claimScore, show (["a", "a", "b"] : List String).dedup = ["a", "b"] from by decide]
  simp only [memScore]
  rw [show tokenize cm1.content = ["a", "x"] from by decide]
  simp only [List.foldl_cons, List.foldl_nil]
  rw [if_pos (show "a" ∈ dtokens cm1 from by decide),
      if_neg (show ¬ "b" ∈ dtokens cm1 from by decide)]
  rw [show dfOf [cm1, cm2] "a" = 1 from by decide]
  rw [show (["a", "x"] : List String).count "a" = 1 from by decide]
  rw [show (if (["a", "x"] : List String).length = 0 then 1
      else (["a", "x"] : List String).length) = 2 from by decide]
  push_cast
  rw [show ((2:ℝ) + 1) / (1 + 1) = 3 / 2 from by norm_num]
  ring

/-- Score of `cm2` under the wording of the specification. -/
theorem claimScore_cm2 :
    claimScore 2 (dfOf [cm1, cm2]) ["a", "a", "b"] cm2 = Real.log (3 / 2) := by
  rw [claimScore, show (["a", "a", "b"] : List String).dedup = ["a", "b"] from by decide]
  simp only [memScore]
  rw [show tokenize cm2.content = ["b"] from by decide]
  simp only [List.foldl_cons, List.foldl_nil]
  rw [if_neg (show ¬ "a" ∈ dtokens cm2 from by decide),
      if_pos (show "b" ∈ dtokens cm2 from by decide)]
  rw [show dfOf [cm1, cm2] "b" = 1 from by decide]
  rw [show (["b"] : List String).count "b" = 1 from by decide]
  rw [show (if (["b"] : List String).length = 0 then 1
      else (["b"] : List String).length) = 1 from by decide]
  push_cast
  rw [show ((2:ℝ) + 1) / (1 + 1) = 3 / 2 from by norm_num]
  ring

/-- Evaluation of the search on the counterexample store: both records tie
under the code score, so insertion order puts `cm1` first. -/
theorem msearch_cex_eval : msearch [cm1, cm2] "a a b" 5 = [cm1, cm2] := by
  rw [msearch_eq_scored [cm1, cm2] "a a b" 5 (by decide) (by decide)]
  rw [show ([cm1, cm2] : List MemRec).length = 2 from rfl]
  rw [show tokenize "a a b" = ["a", "a", "b"] from by decide]
  rw [List.map_cons, List.map_cons, List.map_nil]
  rw [memScore_cm1, memScore_cm2]
  have hL : (0:ℝ) < Real.log (3 / 2) := Real.log_pos (by norm_num)
  simp only [List.filter_cons, List.filter_nil]
  rw [if_pos (show decide ((0:ℝ) < (Real.log (3 / 2), cm1).1) = true from
        decide_eq_true hL),
      if_pos (show decide ((0:ℝ) < (Real.log (3 / 2), cm2).1) = true from
        decide_eq_true hL)]
  simp only [sortDesc, insertDesc]
  rw [if_pos (show ((Real.log (3 / 2), cm2) : ℝ × MemRec).1 ≤
      ((Real.log (3 / 2), cm1) : ℝ × MemRec).1 from le_refl _)]
  rfl

/-- Claim C3, counterexample: with the duplicated-token query `"a a b"` on
the store `[cm1, cm2]`, the code ranks `cm1` (code score `ln(3/2)`, counting
the query token `a` twice) before `cm2`, but under the claimed score — a sum
over the distinct shared terms — `cm1` scores `ln(3/2)/2`, strictly less
than the `ln(3/2)` of `cm2`: the output is not ordered non-increasingly by
the claimed score. -/
theorem search_claim_score_order_cex :
    msearch [cm1, cm2] "a a b" 5 = [cm1, cm2] ∧
    claimScore ([cm1, cm2] : List MemRec).length (dfOf [cm1, cm2])
        (tokenize "a a b") cm1 <
      claimScore ([cm1, cm2] : List MemRec).length (dfOf [cm1, cm2])
        (tokenize "a a b") cm2 := by
  refine ⟨msearch_cex_eval, ?_⟩
  rw [show ([cm1, cm2] : List MemRec).length = 2 from rfl]
  rw [show tokenize "a a b" = ["a", "a", "b"] from by decide]
  rw [claimScore_cm1, claimScore_cm2]
  have hL : (0:ℝ) < Real.log (3 / 2) := Real.log_pos (by norm_num)
  linarith

/-! ### Agent loop lemmas -/

/-- Recognizer for stream-start events. -/
def isStreamStart : UIEvent → Bool
  | UIEvent.streamStart => true
  | _ => false

/-- Number of stream starts in a trace: each loop round of `Agent.run`
invokes `ui.stream_start()` exactly once, so this counts the rounds. -/
def streamStartCount (es : List UIEvent) : Nat :=
  es.countP isStreamStart

/-- The external tool dispatcher emits no stream-start event. -/
theorem executeTool_no_stream (env : Env) (name : String) (args : Args) :
    streamStartCount (executeTool env name args).2 = 0 := by
  rw [executeTool]
  by_cases h : TOOL_FUNCTION_NAMES.contains name
  · rw [if_pos h]
    rfl
  · rw [if_neg h]
    rfl

/-- One tool-call execution extends the event trace without stream starts
and leaves the conversation history untouched. -/
theorem executeToolCall_shape (env : Env) (st : AgentSt) (name : String)
    (args : Args) :
    ∃ es, (executeToolCall env st name args).1.events = st.events ++ es ∧
      (executeToolCall env st name args).1.history = st.history ∧
      streamStartCount es = 0 := by
  simp only [executeToolCall]
  by_cases h1 : name = "ask_user"
  · simp only [if_pos h1]
    refine ⟨_, rfl, ?_, ?_⟩ <;> simp [streamStartCount, isStreamStart]
  simp only [if_neg h1]
  by_cases h2 : name = "remember"
  · simp only [if_pos h2]
    split
    · refine ⟨[], (List.append_nil _).symm, ?_, ?_⟩ <;> simp [streamStartCount]
    · refine ⟨[], (List.append_nil _).symm, ?_, ?_⟩ <;> simp [streamStartCount]
  simp only [if_neg h2]
  by_cases h3 : name = "recall"
  · simp only [if_pos h3]
    split
    · refine ⟨[], (List.append_nil _).symm, ?_, ?_⟩ <;> simp [streamStartCount]
    · refine ⟨[], (List.append_nil _).symm, ?_, ?_⟩ <;> simp [streamStartCount]
  simp only [if_neg h3]
  by_cases h4 : name = "task_complete"
  · simp only [if_pos h4]
    refine ⟨_, rfl, ?_, ?_⟩ <;> simp [streamStartCount, isStreamStart]
  simp only [if_neg h4]
  by_cases h5 : APPROVAL_REQUIRED.contains name
  · simp only [h5, if_true]
    by_cases h6 : env.approve (approvalDesc name args)
    · simp only [h6, if_true]
      refine ⟨[UIEvent.askApproval (approvalDesc name args) true] ++
        (executeTool env name args).2, List.append_assoc _ _ _, ?_, ?_⟩
      · simp
      · have h7 := executeTool_no_stream env name args
        rw [streamStartCount] at h7 ⊢
        rw [List.countP_append, h7]
        rfl
    · simp only [h6, if_false]
      refine ⟨_, rfl, ?_, ?_⟩ <;> simp [streamStartCount, isStreamStart]
  · simp only [h5, if_false]
    refine ⟨(executeTool env name args).2, rfl, ?_, ?_⟩
    · simp
    · exact executeTool_no_stream env name args

/-- A dispatch batch that never reaches the terminal tool neither
early-returns nor adds stream-start events. -/
theorem dispatch_shape (env : Env) :
    ∀ (tcs : List ToolCall) (st : AgentSt),
      (∀ tc ∈ tcs, tc.name ≠ "task_complete") →
      (dispatch env tcs st).2 = false ∧
      streamStartCount (dispatch env tcs st).1.events =
        streamStartCount st.events
  | [], _, _ => ⟨rfl, rfl⟩
  | tc :: rest, st, h => by
    have hname : tc.name ≠ "task_complete" := h tc (List.mem_cons_self tc rest)
    have hrest : ∀ x ∈ rest, x.name ≠ "task_complete" :=
      fun x hx => h x (List.mem_cons_of_mem tc hx)
    simp only [dispatch]
    obtain ⟨es, hev, hhist, hes⟩ := executeToolCall_shape env
      { st with events := st.events ++ [UIEvent.showToolCall tc.name tc.arguments] }
      tc.name tc.arguments
    have hcount : List.countP isStreamStart (executeToolCall env
        { st with events := st.events ++ [UIEvent.showToolCall tc.name tc.arguments] }
        tc.name tc.arguments).1.events = List.countP isStreamStart st.events := by
      rw [hev]
      show List.countP isStreamStart
        ((st.events ++ [UIEvent.showToolCall tc.name tc.arguments]) ++ es) = _
      rw [List.countP_append, List.countP_append]
      rw [streamStartCount] at hes
      rw [hes]
      rfl
    split
    · refine ⟨(dispatch_shape env rest _ hrest).1, ?_⟩
      rw [(dispatch_shape env rest _ hrest).2]
      simp only [streamStartCount, List.countP_append]
      rw [hcount]
      simp [isStreamStart]
    · rw [if_neg hname]
      refine ⟨(dispatch_shape env rest _ hrest).1, ?_⟩
      rw [(dispatch_shape env rest _ hrest).2]
      simp only [streamStartCount, List.countP_append]
      rw [hcount]
      simp [isStreamStart]

/-- Composed form: stream-token display events are not stream starts. -/
theorem countP_comp_streamTok (ss : List String) :
    List.countP (isStreamStart ∘ UIEvent.streamTok) ss = 0 := by
  rw [List.countP_eq_zero]
  intro s _
  simp [isStreamStart]

/-- Stream-token display events never count as stream starts. -/
theorem countP_streamTok (ss : List String) :
    List.countP isStreamStart (ss.map UIEvent.streamTok) = 0 := by
  rw [List.countP_eq_zero]
  intro e he
  obtain ⟨s, _, rfl⟩ := List.mem_map.1 he
  simp [isStreamStart]

/-- Against a backend that always delivers at least one non-terminal tool
call and no error, every remaining round budget is consumed: `n` further
rounds each emit exactly one stream start, and the trace ends with the
informational max-rounds notice. -/
theorem roundLoop_max (env : Env) (u : String)
    (H : ∀ ms, (env.backend ms).err = none ∧
      chunkCalls (env.backend ms).chunks ≠ [] ∧
      ∀ tc ∈ chunkCalls (env.backend ms).chunks, tc.name ≠ "task_complete") :
    ∀ (n : Nat) (st : AgentSt),
      streamStartCount (roundLoop env u n st).events =
        streamStartCount st.events + n ∧
      (roundLoop env u n st).events.getLast? =
        some (UIEvent.showInfo "Reached maximum tool rounds. Stopping.")
  | 0, st => by
    constructor
    · simp only [roundLoop, streamStartCount, List.countP_append]
      simp [isStreamStart]
    · simp only [roundLoop]
      exact List.getLast?_concat _
  | n + 1, st => by
    obtain ⟨herr, hcalls, hnames⟩ := H (systemMessage st u :: st.history)
    simp only [roundLoop]
    split
    · rename_i e heq
      rw [herr] at heq
      exact Option.noConfusion heq
    · rw [if_pos (Or.inr hcalls), if_neg hcalls]
      rw [if_neg (ne_true_of_eq_false (dispatch_shape env _ _ hnames).1)]
      refine ⟨?_, (roundLoop_max env u H n _).2⟩
      rw [(roundLoop_max env u H n _).1]
      rw [(dispatch_shape env _ _ hnames).2]
      simp [streamStartCount, List.countP_append, countP_streamTok,
        countP_comp_streamTok, isStreamStart]
      omega

/-! ### Claim C5 -/

/-- Claim C5: against a backend that on every round returns at least one
tool call, never the terminal `task_complete` tool and no stream error,
`Agent.run` performs exactly `max_tool_rounds = 15` rounds (one
`stream_start` per round) and then ends the turn with the informational
"Reached maximum tool rounds. Stopping." notice as the final UI event — an
info message, not an error. -/
theorem max_rounds_spec (env : Env) (st : AgentSt) (u : String)
    (H : ∀ ms, (env.backend ms).err = none ∧
      chunkCalls (env.backend ms).chunks ≠ [] ∧
      ∀ tc ∈ chunkCalls (env.backend ms).chunks, tc.name ≠ "task_complete") :
    streamStartCount (runAgent env st u).events =
      streamStartCount st.events + maxToolRounds ∧
    maxToolRounds = 15 ∧
    (runAgent env st u).events.getLast? =
      some (UIEvent.showInfo "Reached maximum tool rounds. Stopping.") := by
  have h := roundLoop_max env u H maxToolRounds
    { st with history := st.history ++ [{ role := "user", content := u }] }
  exact ⟨h.1, rfl, h.2⟩

/-- Environment used by agent-loop witnesses: a backend that always returns
one `read_file` tool call. -/
def envW : Env :=
  { backend := fun _ =>
      { chunks := [Chunk.toolCall { name := "read_file", arguments := [] }],
        err := none }
    approve := fun _ => true
    ask := fun _ => ""
    execToolExt := fun _ _ => "ok"
    genId := fun _ => "id"
    genTime := fun _ => "t" }

/-- Fresh agent state used by agent-loop witnesses. -/
def stW : AgentSt :=
  { history := [], memory := { memories := [], disk := "" }, planning := false,
    nextId := 0, events := [] }

/-- Witness for `max_rounds_spec` on the concrete looping backend. -/
theorem max_rounds_spec_witness :
    (∀ ms, (envW.backend ms).err = none ∧
      chunkCalls (envW.backend ms).chunks ≠ [] ∧
      ∀ tc ∈ chunkCalls (envW.backend ms).chunks, tc.name ≠ "task_complete") ∧
    streamStartCount (runAgent envW stW "go").events =
      streamStartCount stW.events + maxToolRounds ∧
    (runAgent envW stW "go").events.getLast? =
      some (UIEvent.showInfo "Reached maximum tool rounds. Stopping.") := by
  have hc : ∀ ms, chunkCalls (envW.backend ms).chunks =
      [{ name := "read_file", arguments := [] }] := fun _ => rfl
  have H : ∀ ms, (envW.backend ms).err = none ∧
      chunkCalls (envW.backend ms).chunks ≠ [] ∧
      ∀ tc ∈ chunkCalls (envW.backend ms).chunks, tc.name ≠ "task_complete" :=
    fun ms => ⟨rfl, by rw [hc ms]; decide, by rw [hc ms]; decide⟩
  have h := max_rounds_spec envW stW "go" H
  exact ⟨H, h.1, h.2.2⟩

/-! ### Claim C6 -/

/-- Claim C6: a gated tool call that the approval collaborator denies never
reaches the tool implementation (the extension consists of the three listed
UI events only — no `toolExec` event), a synthetic denial tool-result turn
is appended to the history in its place, and the dispatch loop continues
with the remaining calls of the batch from that state. -/
theorem denial_spec (env : Env) (st : AgentSt) (tc : ToolCall)
    (rest : List ToolCall)
    (hgate : tc.name ∈ APPROVAL_REQUIRED)
    (hdeny : env.approve (approvalDesc tc.name tc.arguments) = false) :
    dispatch env (tc :: rest) st =
      dispatch env rest
        { st with
          history := st.history ++
            [{ role := "tool",
               content := "User denied execution of " ++ tc.name ++ "." }]
          events := st.events ++
            [UIEvent.showToolCall tc.name tc.arguments,
             UIEvent.askApproval (approvalDesc tc.name tc.arguments) false,
             UIEvent.showInfo "Action denied by user."] } := by
  have hn : tc.name = "run_command" ∨ tc.name = "write_file" ∨
      tc.name = "edit_file" := by
    simpa [APPROVAL_REQUIRED] using hgate
  have hne1 : ¬ tc.name = "ask_user" := by rcases hn with h | h | h <;> simp [h]
  have hne2 : ¬ tc.name = "remember" := by rcases hn with h | h | h <;> simp [h]
  have hne3 : ¬ tc.name = "recall" := by rcases hn with h | h | h <;> simp [h]
  have hne4 : ¬ tc.name = "task_complete" := by
    rcases hn with h | h | h <;> simp [h]
  have hcont : APPROVAL_REQUIRED.contains tc.name = true := by
    rcases hn with h | h | h <;> rw [h] <;> decide
  have hdeny' : ¬ env.approve (approvalDesc tc.name tc.arguments) = true := by
    simp [hdeny]
  simp only [dispatch, executeToolCall, if_neg hne1, if_neg hne2, if_neg hne3,
    if_neg hne4, hcont, if_true, if_neg hdeny']
  rw [hdeny]
  congr 1
  simp [List.append_assoc]

/-- Environment whose approval collaborator denies everything. -/
def envD : Env :=
  { backend := fun _ => { chunks := [], err := none }
    approve := fun _ => false
    ask := fun _ => ""
    execToolExt := fun _ _ => "ok"
    genId := fun _ => "id"
    genTime := fun _ => "t" }

/-- Gated call used by the denial witness. -/
def tcW : ToolCall := { name := "run_command", arguments := [("command", "ls")] }

/-- Witness for `denial_spec` at a concrete denied `run_command` call. -/
theorem denial_spec_witness :
    (tcW.name ∈ APPROVAL_REQUIRED ∧
      envD.approve (approvalDesc tcW.name tcW.arguments) = false) ∧
    dispatch envD [tcW] stW =
      dispatch envD []
        { stW with
          history := stW.history ++
            [{ role := "tool",
               content := "User denied execution of " ++ tcW.name ++ "." }]
          events := stW.events ++
            [UIEvent.showToolCall tcW.name tcW.arguments,
             UIEvent.askApproval (approvalDesc tcW.name tcW.arguments) false,
             UIEvent.showInfo "Action denied by user."] } :=
  ⟨⟨by decide, rfl⟩, denial_spec envD stW tcW [] (by decide) rfl⟩

/-- A round whose backend response carries no tool call terminates the turn
immediately: an assistant turn is appended exactly when the cleaned text is
non-empty, and no dispatch happens. -/
theorem roundLoop_no_calls (env : Env) (u : String) (n : Nat) (st : AgentSt)
    (herr : (env.backend (systemMessage st u :: st.history)).err = none)
    (hcalls : chunkCalls (env.backend (systemMessage st u :: st.history)).chunks = []) :
    roundLoop env u (n + 1) st =
      if cleanText (fullText (env.backend (systemMessage st u :: st.history)).chunks) ≠ "" then
        { st with
          history := st.history ++
            [{ role := "assistant",
               content := cleanText (fullText (env.backend (systemMessage st u :: st.history)).chunks),
               tool_calls := [] }]
          events := st.events ++ [UIEvent.streamStart] ++
            (chunkTexts (env.backend (systemMessage st u :: st.history)).chunks).map UIEvent.streamTok ++
            [UIEvent.streamEnd] }
      else
        { st with events := st.events ++ [UIEvent.streamStart] ++
            (chunkTexts (env.backend (systemMessage st u :: st.history)).chunks).map UIEvent.streamTok ++
            [UIEvent.streamEnd] } := by
  simp only [roundLoop]
  split
  · rename_i e heq
    rw [herr] at heq
    exact Option.noConfusion heq
  · rw [hcalls]
    by_cases hct : cleanText (fullText (env.backend (systemMessage st u :: st.history)).chunks) ≠ ""
    · rw [if_pos (Or.inl hct), if_pos rfl, if_pos hct]
    · have hcond : ¬(cleanText (fullText (env.backend
          (systemMessage st u :: st.history)).chunks) ≠ "" ∨
          ([] : List ToolCall) ≠ []) := by
        rintro (h | h)
        · exact hct h
        · exact h rfl
      rw [if_neg hcond, if_pos rfl, if_neg hct]

/-- Message list of the first round of a user turn, as `Agent.run` builds it
(system message from the updated state plus the history including the new
user turn). -/
noncomputable def firstMessages (st : AgentSt) (u : String) : List Msg :=
  systemMessage { st with history := st.history ++ [{ role := "user", content := u }] } u ::
    (st.history ++ [{ role := "user", content := u }])

/-- Packaging of `roundLoop_no_calls` for a full user turn, phrased through
`firstMessages`. -/
theorem runAgent_no_calls (env : Env) (st : AgentSt) (u : String)
    (herr : (env.backend (firstMessages st u)).err = none)
    (hcalls : chunkCalls (env.backend (firstMessages st u)).chunks = []) :
    runAgent env st u =
      if cleanText (fullText (env.backend (firstMessages st u)).chunks) ≠ "" then
        { st with
          history := (st.history ++ [{ role := "user", content := u }]) ++
            [{ role := "assistant",
               content := cleanText (fullText (env.backend (firstMessages st u)).chunks),
               tool_calls := [] }]
          events := st.events ++ [UIEvent.streamStart] ++
            (chunkTexts (env.backend (firstMessages st u)).chunks).map UIEvent.streamTok ++
            [UIEvent.streamEnd] }
      else
        { st with
          history := st.history ++ [{ role := "user", content := u }]
          events := st.events ++ [UIEvent.streamStart] ++
            (chunkTexts (env.backend (firstMessages st u)).chunks).map UIEvent.streamTok ++
            [UIEvent.streamEnd] } :=
  roundLoop_no_calls env u 14
    { st with history := st.history ++ [{ role := "user", content := u }] }
    herr hcalls

/-! ### Claim C7 -/

/-- Claim C7 as amended: when the first-round backend response carries no
tool call, no error, and text whose reasoning-stripped trimmed form is
non-empty, `Agent.run` appends exactly one assistant turn (after the user
turn) and terminates without dispatching any tool — the event trace extends
only by the streaming display events.  (When the stripped text is empty, no
assistant turn is appended at all — see the counterexample.) -/
theorem text_only_round_spec (env : Env) (st : AgentSt) (u : String)
    (herr : (env.backend (firstMessages st u)).err = none)
    (hcalls : chunkCalls (env.backend (firstMessages st u)).chunks = [])
    (htext : cleanText (fullText (env.backend (firstMessages st u)).chunks) ≠ "") :
    (runAgent env st u).history = st.history ++
      [{ role := "user", content := u },
       { role := "assistant",
         content := cleanText (fullText (env.backend (firstMessages st u)).chunks),
         tool_calls := [] }] ∧
    (runAgent env st u).events = st.events ++
      [UIEvent.streamStart] ++
      (chunkTexts (env.backend (firstMessages st u)).chunks).map UIEvent.streamTok ++
      [UIEvent.streamEnd] := by
  rw [runAgent_no_calls env st u herr hcalls, if_pos htext]
  constructor
  · simp
  · rfl

/-- Environment for the claim C7 counterexample: the backend emits only the
whitespace text token `" "` and no tool calls. -/
def envT : Env :=
  { backend := fun _ => { chunks := [Chunk.text " "], err := none }
    approve := fun _ => true
    ask := fun _ => ""
    execToolExt := fun _ _ => "ok"
    genId := fun _ => "id"
    genTime := fun _ => "t" }

/-- Claim C7, counterexample: a first-round response consisting of the text
token `" "` (text, no tool calls) leads to NO assistant turn being appended
— the history of the finished turn holds only the user message, because the
cleaned text is empty and `Agent.run` skips the append. -/
theorem text_only_empty_strip_cex :
    (runAgent envT stW "hi").history = [{ role := "user", content := "hi" }] ∧
    (runAgent envT stW "hi").history.filter (fun m => m.role == "assistant") = [] := by
  rw [runAgent_no_calls envT stW "hi" rfl rfl, if_neg (by decide)]
  constructor
  · simp [stW]
  · simp [stW]

/-- Environment for the claim C7 witness: the backend emits the text token
`"hello"` and no tool calls. -/
def envT2 : Env :=
  { backend := fun _ => { chunks := [Chunk.text "hello"], err := none }
    approve := fun _ => true
    ask := fun _ => ""
    execToolExt := fun _ _ => "ok"
    genId := fun _ => "id"
    genTime := fun _ => "t" }

/-- Witness for `text_only_round_spec` on a concrete text-only backend. -/
theorem text_only_round_spec_witness :
    ((envT2.backend (firstMessages stW "hi")).err = none ∧
      chunkCalls (envT2.backend (firstMessages stW "hi")).chunks = [] ∧
      cleanText (fullText (envT2.backend (firstMessages stW "hi")).chunks) ≠ "") ∧
    (runAgent envT2 stW "hi").history = stW.history ++
      [{ role := "user", content := "hi" },
       { role := "assistant",
         content := cleanText (fullText (envT2.backend (firstMessages stW "hi")).chunks),
         tool_calls := [] }] :=
  ⟨⟨rfl, rfl, by decide⟩,
   (text_only_round_spec envT2 stW "hi" rfl rfl (by decide)).1⟩

/-! ### Claim C4 -/

/-- Claim C4: when the backend delivers the text tokens `"a<th"` and then
`"ink>secret</think>b"` in one turn, the assistant turn persisted to
history has content exactly `"ab"` (the regex strip removes the reasoning
block even though the opening delimiter straddled the two tokens), the UI
receives exactly those two tokens as streaming events, and feeding them to
the `CursesUI.stream_token` scanner leaves `"secret"` only in the ephemeral
reasoning buffer rendered as the transient `thinking:` line — the persisted
display buffer holds just `"a"`. -/
theorem reasoning_stream_spec (env : Env) (st : AgentSt) (u : String)
    (hb : env.backend = fun _ =>
      { chunks := [Chunk.text "a<th", Chunk.text "ink>secret</think>b"],
        err := none }) :
    (runAgent env st u).history = st.history ++
      [{ role := "user", content := u },
       { role := "assistant", content := "ab", tool_calls := [] }] ∧
    (runAgent env st u).events = st.events ++
      [UIEvent.streamStart, UIEvent.streamTok "a<th",
       UIEvent.streamTok "ink>secret</think>b", UIEvent.streamEnd] ∧
    uiStreamToken (uiStreamToken streamStartState "a<th") "ink>secret</think>b" =
      { streamBuf := "a", thinking := true, thinkBuf := "secret</think>b" } ∧
    renderThinkLine
      (uiStreamToken (uiStreamToken streamStartState "a<th") "ink>secret</think>b") =
      "  thinking: secret</think>b..." := by
  have h := runAgent_no_calls env st u (by rw [hb]) (by rw [hb]; exact rfl)
  rw [hb] at h
  rw [show cleanText (fullText
      ([Chunk.text "a<th", Chunk.text "ink>secret</think>b"] : List Chunk)) = "ab"
    from by decide] at h
  rw [show chunkTexts ([Chunk.text "a<th", Chunk.text "ink>secret</think>b"] :
      List Chunk) = ["a<th", "ink>secret</think>b"] from rfl] at h
  rw [if_pos (by decide : ("ab" : String) ≠ "")] at h
  rw [h]
  refine ⟨by simp, by simp, by decide, by decide⟩

/-- Environment for the claim C4 witness: the backend delivering the two
tokens that straddle the `<think>` delimiter. -/
def envC4 : Env :=
  { backend := fun _ =>
      { chunks := [Chunk.text "a<th", Chunk.text "ink>secret</think>b"],
        err := none }
    approve := fun _ => true
    ask := fun _ => ""
    execToolExt := fun _ _ => "ok"
    genId := fun _ => "id"
    genTime := fun _ => "t" }

/-- Witness for `reasoning_stream_spec` at the concrete environment. -/
theorem reasoning_stream_spec_witness :
    (envC4.backend = fun _ =>
      ({ chunks := [Chunk.text "a<th", Chunk.text "ink>secret</think>b"],
         err := none } : BackendOut)) ∧
    (runAgent envC4 stW "go").history = stW.history ++
      [{ role := "user", content := "go" },
       { role := "assistant", content := "ab", tool_calls := [] }] :=
  ⟨rfl, (reasoning_stream_spec envC4 stW "go" rfl).1⟩
